import Mathlib

/-!
Verification development for the mcp-smart-reader repository
(src/mcp_smart_reader/summarizer.py and src/mcp_smart_reader/server.py).

Text is modelled as `List Char` (Python strings are sequences of code
points).  Python's `\s` character class is modelled by its ASCII part,
which is all the source's regexes and the documents in question use.
The external collaborators (filesystem and the tiktoken token counter)
are modelled as explicit function parameters, following the spec's
treatment of them as pluggable dependencies.
-/

def s2l (s : String) : List Char := s.toList

/-- ASCII part of Python's regex class `\s` and of `str.strip`'s default
whitespace set. -/
def pyWs (c : Char) : Bool :=
  c = ' ' || c = '\t' || c = '\n' || c = '\r' || c = '\x0b' || c = '\x0c'

/-- Whether a list starts with a whitespace character. -/
def startsWs : List Char → Bool
  | [] => false
  | c :: _ => pyWs c

/-- Newline test. -/
def isNl (c : Char) : Bool := c = '\n'

/-- Non-newline test (the class matched by `.` outside DOTALL mode). -/
def notNl (c : Char) : Bool := ¬ c = '\n'

/-- Python `str.lower` on a code-point list (ASCII-faithful). -/
def lowerL (s : List Char) : List Char := s.map Char.toLower

/-- Python's substring test `needle in hay`. -/
def containsSub : List Char → List Char → Bool
  | needle, [] => needle.isEmpty
  | needle, h :: t => needle.isPrefixOf (h :: t) || containsSub needle t

/-- Number of (possibly overlapping) occurrence positions of `needle`
inside `hay`. -/
def countOccs : List Char → List Char → Nat
  | needle, [] => if needle.isEmpty then 1 else 0
  | needle, h :: t =>
      (if needle.isPrefixOf (h :: t) then 1 else 0) + countOccs needle t

/-- Python `str.strip()` (whitespace trim at both ends). -/
def stripChars (s : List Char) : List Char :=
  ((s.dropWhile pyWs).reverse.dropWhile pyWs).reverse

/-!
Heading scanner.

`extract_section_headers` uses `re.findall(r"^#{1,3}\s+(.+)$", text, re.MULTILINE)`
and `extract_section_content` uses `re.finditer(r"^(#{1,6})\s+(.+?)$", text, re.MULTILINE)`.
Both regexes have the same match semantics up to the hash cap:
a match starts at a line start with a run of 1..cap `#` characters,
then `\s+` greedily takes whitespace (which may cross newlines, since
`\s` matches `\n`), and the captured title is the remainder of the line
on which the first non-whitespace character appears.  If the text ends
while inside the whitespace run, the regex engine backtracks and the
title becomes the last non-newline whitespace character, provided at
least one whitespace character precedes it (`\s+` needs one).
The scanner below is that engine, written as a single-pass state machine;
it reports `(offset, level, title)` triples where `offset` is `m.start()`.
-/

inductive ScanState where
  | lineStart : ScanState
  | skipLn : ScanState
  | hashes : Nat → Nat → ScanState
  | wsRun : Nat → Nat → List Char → ScanState
  | titleRun : Nat → Nat → List Char → ScanState

/-- Headings emitted when the input ends in a given scanner state. -/
def scanEnd : ScanState → List (Nat × Nat × List Char)
  | .titleRun p r t => [(p, r, t.reverse)]
  | .wsRun p r w =>
      match w.dropWhile isNl with
      | [] => []
      | c :: pre => if pre = [] then [] else [(p, r, [c])]
  | _ => []

/-- One-pass heading scanner; `i` is the absolute offset of the head of
the remaining text. -/
def scanStep (cap : Nat) : ScanState → Nat → List Char → List (Nat × Nat × List Char)
  | st, _, [] => scanEnd st
  | st, i, c :: rest =>
    match st with
    | .lineStart =>
        if c = '#' then scanStep cap (.hashes i 1) (i + 1) rest
        else if c = '\n' then scanStep cap .lineStart (i + 1) rest
        else scanStep cap .skipLn (i + 1) rest
    | .skipLn =>
        if c = '\n' then scanStep cap .lineStart (i + 1) rest
        else scanStep cap .skipLn (i + 1) rest
    | .hashes p k =>
        if c = '#' then scanStep cap (.hashes p (k + 1)) (i + 1) rest
        else if k ≤ cap ∧ pyWs c then scanStep cap (.wsRun p k [c]) (i + 1) rest
        else if c = '\n' then scanStep cap .lineStart (i + 1) rest
        else scanStep cap .skipLn (i + 1) rest
    | .wsRun p r w =>
        if pyWs c then scanStep cap (.wsRun p r (c :: w)) (i + 1) rest
        else scanStep cap (.titleRun p r [c]) (i + 1) rest
    | .titleRun p r t =>
        if c = '\n' then (p, r, t.reverse) :: scanStep cap .lineStart (i + 1) rest
        else scanStep cap (.titleRun p r (c :: t)) (i + 1) rest

/-- All heading matches of `^(#{1,cap})\s+(.+?)$` over the text, as
`(offset, level, title)` triples in document order. -/
def scanHeadings (cap : Nat) (text : List Char) : List (Nat × Nat × List Char) :=
  scanStep cap .lineStart 0 text

/-- summarizer.py `extract_section_headers`: titles of the `#{1,3}` matches. -/
def extract_section_headers (text : List Char) : List (List Char) :=
  (scanHeadings 3 text).map (fun h => h.2.2)

/-- summarizer.py `extract_headers`, the alias imported by server.py. -/
def extract_headers : List Char → List (List Char) := extract_section_headers

/-!
Line-level reference view used to state claim C1.
-/

/-- Split into lines at `\n` (separator removed), accumulator version. -/
def linesGo : List Char → List Char → List (List Char)
  | [], acc => [acc.reverse]
  | c :: r, acc =>
      if c = '\n' then acc.reverse :: linesGo r [] else linesGo r (c :: acc)

/-- The lines of a text. -/
def linesOf (cs : List Char) : List (List Char) := linesGo cs []

/-- Run length of leading `#` characters. -/
def hashCount : List Char → Nat
  | [] => 0
  | c :: r => if c = '#' then hashCount r + 1 else 0

/-- Per-line heading title under the `#{1,cap}` grammar: a line whose
leading hash run has length 1..cap, followed by at least one whitespace
character and then a non-whitespace remainder; the title is the
remainder after that whitespace run (trailing whitespace kept). -/
def lineHeaderOpt (cap : Nat) (ln : List Char) : Option (List Char) :=
  let r := hashCount ln
  if 1 ≤ r ∧ r ≤ cap ∧ startsWs (ln.drop r) = true ∧ (ln.drop r).dropWhile pyWs ≠ [] then
    some ((ln.drop r).dropWhile pyWs)
  else none

/-!
Key-point extraction (summarizer.py `extract_key_points`).
-/

/-- Sentence terminator class `[.!?]` of the splitting regex. -/
def isTerm (c : Char) : Bool := c = '.' || c = '!' || c = '?'

/-- State machine for `re.split(r"[.!?]\s+", text)`: the Boolean flag is
true while consuming the whitespace of a separator match. -/
def splitGo : Bool → List Char → List Char → List (List Char)
  | _, [], acc => [acc.reverse]
  | skipping, c :: rest, acc =>
      if skipping && pyWs c then splitGo true rest acc
      else if isTerm c && startsWs rest then acc.reverse :: splitGo true rest []
      else splitGo false rest (c :: acc)

/-- The sentence-like units of the text. -/
def splitSentences (text : List Char) : List (List Char) := splitGo false text []

/-- The fixed indicator vocabulary `key_indicators` of `extract_key_points`. -/
def key_indicators : List (List Char) :=
  [s2l "we present", s2l "we propose", s2l "we demonstrate", s2l "we show",
   s2l "our contributions", s2l "in this paper", s2l "this paper",
   s2l "remarkably", s2l "importantly", s2l "significantly",
   s2l "convergent evolution", s2l "validates", s2l "evidence"]

/-- Score of one sentence-like unit: the indicator loop adds 2 for each
indicator contained in the lowercased unit, and 1 is added when the raw
unit's length is strictly between 50 and 300. -/
def sentenceScore (s : List Char) : Nat :=
  let low := lowerL s
  let base := key_indicators.foldl
    (fun sc ind => if containsSub ind low then sc + 2 else sc) 0
  if 50 < s.length ∧ s.length < 300 then base + 1 else base

/-- Modelled from the spec (for comparison with `sentenceScore`): a
score of +2 for each occurrence of each indicator, counted cumulatively
when an indicator occurs several times, plus the same length bonus. -/
def specSentenceScore (s : List Char) : Nat :=
  let low := lowerL s
  let base := 2 * (key_indicators.map (fun ind => countOccs ind low)).sum
  if 50 < s.length ∧ s.length < 300 then base + 1 else base

/-- The `(score, stripped sentence)` pairs with positive score, in
document order. -/
def scoredSentences (text : List Char) : List (Nat × List Char) :=
  (splitSentences text).filterMap
    (fun s => if sentenceScore s > 0 then some (sentenceScore s, stripChars s) else none)

/-- Stable insertion into a descending-by-score list: the new element
goes in front of the first element whose score is not larger. -/
def insertScored {α : Type} (x : Nat × α) : List (Nat × α) → List (Nat × α)
  | [] => [x]
  | y :: ys => if y.1 ≤ x.1 then x :: y :: ys else y :: insertScored x ys

/-- Stable sort by score descending, the behavior of Python's
`list.sort(reverse=True, key=lambda x: x[0])`. -/
def sortScored {α : Type} : List (Nat × α) → List (Nat × α)
  | [] => []
  | x :: xs => insertScored x (sortScored xs)

/-- summarizer.py `extract_key_points`. -/
def extract_key_points (text : List Char) (num_points : Nat) : List (List Char) :=
  ((sortScored (scoredSentences text)).take num_points).map Prod.snd

/-!
Keyword extraction (summarizer.py `extract_keywords_from_abstract`),
regex `\*\*Keywords:\*\*\s*(.+?)(?:\n|$)` with IGNORECASE.
-/

/-- The lowered label literal `**Keywords:**`. -/
def kwLit : List Char := s2l "**keywords:**"

/-- Behavior of `\s*(.+?)(?:\n|$)` on the text after the label: if a
non-whitespace character follows the whitespace run, the group is the
rest of that character's line; if only whitespace remains, backtracking
yields the last non-newline character as the group (one character),
and the match fails when only newlines (or nothing) remain. -/
def kwAfterLabel (r : List Char) : Option (List Char) :=
  let rest := r.dropWhile pyWs
  if rest ≠ [] then some (rest.takeWhile notNl)
  else
    match r.reverse.dropWhile isNl with
    | [] => none
    | c :: _ => some [c]

/-- Leftmost-match search for the keyword-line regex; returns the
captured group. -/
def findKwMatch : List Char → Option (List Char)
  | [] => none
  | c :: rest =>
      if kwLit.isPrefixOf (lowerL (c :: rest)) then
        match kwAfterLabel ((c :: rest).drop kwLit.length) with
        | some g => some g
        | none => findKwMatch rest
      else findKwMatch rest

/-- Python `str.split(",")` (keeps empty pieces), accumulator version. -/
def splitCommaGo : List Char → List Char → List (List Char)
  | [], acc => [acc.reverse]
  | c :: r, acc =>
      if c = ',' then acc.reverse :: splitCommaGo r [] else splitCommaGo r (c :: acc)

/-- Python `str.split(",")`. -/
def splitComma (cs : List Char) : List (List Char) := splitCommaGo cs []

/-- summarizer.py `extract_keywords_from_abstract`: split the captured
group on commas and strip each token (empty tokens are kept). -/
def extract_keywords_from_abstract (text : List Char) : List (List Char) :=
  match findKwMatch text with
  | some g => (splitComma g).map stripChars
  | none => []

/-!
Abstract extraction (summarizer.py `extract_abstract`),
regex `## Abstract\n\n(.+?)(?=\n## |\n---|\Z)` with DOTALL.
-/

/-- The literal `## Abstract` followed by a blank line. -/
def abstractLit : List Char := s2l "## Abstract\n\n"

/-- The lookahead `(?=\n## |\n---|\Z)`. -/
def stopAbs (cs : List Char) : Bool :=
  cs.isEmpty || (s2l "\n## ").isPrefixOf cs || (s2l "\n---").isPrefixOf cs

/-- Characters taken by the lazy `.+?` after its mandatory first one. -/
def absTakeGo : List Char → List Char
  | [] => []
  | c :: r => if stopAbs (c :: r) then [] else c :: absTakeGo r

/-- First occurrence of the abstract literal that is followed by at
least one character (otherwise the whole pattern cannot match there and
the search moves on); returns the text after the literal. -/
def findAbsLit : List Char → Option (List Char)
  | [] => none
  | c :: rest =>
      if abstractLit.isPrefixOf (c :: rest) ∧ (c :: rest).drop abstractLit.length ≠ [] then
        some ((c :: rest).drop abstractLit.length)
      else findAbsLit rest

/-- summarizer.py `extract_abstract`. -/
def extract_abstract (text : List Char) : List Char :=
  match findAbsLit text with
  | none => []
  | some [] => []
  | some (c :: r) => stripChars (c :: absTakeGo r)

/-!
Section content (summarizer.py `extract_section_content`).
-/

/-- First heading whose title contains the lowered target as a
substring, together with the headings after it. -/
def findHeadingTgt (hl : List Char) :
    List (Nat × Nat × List Char) → Option ((Nat × Nat × List Char) × List (Nat × Nat × List Char))
  | [] => none
  | h :: t => if containsSub hl (lowerL h.2.2) then some (h, t) else findHeadingTgt hl t

/-- summarizer.py `extract_section_content`: returns
`(content, heading_level, start_line, end_line)` or `none`. -/
def extract_section_content (text heading : List Char) :
    Option (List Char × Nat × Nat × Nat) :=
  match findHeadingTgt (lowerL heading) (scanHeadings 6 text) with
  | none => none
  | some ((p, l, _), rest) =>
      let endPos :=
        match rest.find? (fun h => decide (h.2.1 ≤ l)) with
        | some h => h.1
        | none => text.length
      some (stripChars ((text.drop p).take (endPos - p)), l,
            (text.take p).count '\n' + 1, (text.take endPos).count '\n' + 1)

/-!
Summary composition (summarizer.py `generate_summary`).
-/

/-- Python `sep.join(parts)`. -/
def joinSep (sep : List Char) (parts : List (List Char)) : List Char :=
  List.intercalate sep parts

/-- summarizer.py `generate_summary`: the `structured` style assembles
keyword, abstract, section and key-finding blocks; any other style
falls back to the first 1000 characters. -/
def generate_summary (content : List Char) (style : String) : List Char :=
  if style = "structured" then
    let keywords := extract_keywords_from_abstract content
    let abstract := extract_abstract content
    let headers := extract_section_headers content
    let key_points := extract_key_points content 8
    let parts : List (List Char) :=
      (if keywords ≠ [] then [s2l "KEYWORDS: " ++ joinSep (s2l ", ") keywords] else []) ++
      (if abstract ≠ [] then [s2l "\nABSTRACT:\n" ++ abstract.take 500 ++ s2l "..."] else []) ++
      (if headers ≠ [] then
        [s2l "\nSECTIONS:\n" ++ joinSep (s2l "\n") ((headers.take 15).map (fun h => s2l "- " ++ h))]
       else []) ++
      (if key_points ≠ [] then
        [s2l "\nKEY FINDINGS:\n" ++ joinSep (s2l "\n") (key_points.map (fun p => s2l "- " ++ p))]
       else [])
    if parts ≠ [] then joinSep (s2l "\n") parts else content.take 1000
  else content.take 1000

/-!
Server layer (server.py).  The filesystem is a parameter
`fs : String → Option (List Char)` (`none` models a missing file) and
the tiktoken-based `estimate_tokens` is a parameter
`tok : List Char → Nat`, as the spec treats both as external
collaborators.
-/

/-- server.py `TOKEN_THRESHOLD`. -/
def TOKEN_THRESHOLD : Nat := 10000

/-- Round-half-even to an integer, Python's `round` on exact values. -/
def rhe (q : ℚ) : ℤ :=
  let f := ⌊q⌋
  let r := q - f
  if r < 1/2 then f else if 1/2 < r then f + 1 else if f % 2 = 0 then f else f + 1

/-- Python `round(q, 1)` modelled on rationals. -/
def round1 (q : ℚ) : ℚ := (rhe (q * 10) : ℚ) / 10

/-- server.py smart_read's `reduction_factor` field:
`round(token_count / summary_tokens, 1) if summary_tokens > 0 else 0`. -/
def reduction_factor (token_count summary_tokens : Nat) : ℚ :=
  if 0 < summary_tokens then round1 ((token_count : ℚ) / (summary_tokens : ℚ)) else 0

/-- server.py smart_read's `completeness_score` (and
`confidence.completeness`) field:
`summary_tokens / token_count if token_count > 0 else 0`. -/
def completeness_score (token_count summary_tokens : Nat) : ℚ :=
  if 0 < token_count then (summary_tokens : ℚ) / (token_count : ℚ) else 0

/-- Result dictionary of server.py `smart_read`; the `type` key is the
constructor. -/
inductive SmartReadResult where
  | errorRes (msg : String)
  | summaryRes (content : List Char) (style : String)
      (original_tokens summary_tokens : Nat)
      (reduction_factor completeness_score confidence_completeness : ℚ)
      (sections_count : Nat) (sections_headers : List (List Char))
  | fullRes (content : List Char) (tokens : Nat)
deriving DecidableEq

/-- The `type` field of a smart_read response. -/
def SmartReadResult.rtype : SmartReadResult → String
  | .errorRes _ => "error"
  | .summaryRes _ _ _ _ _ _ _ _ _ => "summary"
  | .fullRes _ _ => "full"

/-- The `error` field of a smart_read response. -/
def SmartReadResult.errMsg : SmartReadResult → Option String
  | .errorRes m => some m
  | _ => none

/-- The `original_tokens` field (0 outside summary responses). -/
def SmartReadResult.origTok : SmartReadResult → Nat
  | .summaryRes _ _ o _ _ _ _ _ _ => o
  | _ => 0

/-- The `summary_tokens` field (0 outside summary responses). -/
def SmartReadResult.sumTok : SmartReadResult → Nat
  | .summaryRes _ _ _ st _ _ _ _ _ => st
  | _ => 0

/-- The `reduction_factor` field (0 outside summary responses). -/
def SmartReadResult.redFac : SmartReadResult → ℚ
  | .summaryRes _ _ _ _ rf _ _ _ _ => rf
  | _ => 0

/-- The `coverage.completeness_score` field (0 outside summary responses). -/
def SmartReadResult.compScore : SmartReadResult → ℚ
  | .summaryRes _ _ _ _ _ cs _ _ _ => cs
  | _ => 0

/-- server.py `smart_read` (the metadata the claims speak about; the
fixed-text fields such as the preamble and the suggestion lists are
omitted). -/
def smart_read (fs : String → Option (List Char)) (tok : List Char → Nat)
    (file_path mode summary_style : String) : SmartReadResult :=
  match fs file_path with
  | none => .errorRes ("File not found: " ++ file_path)
  | some content =>
      let token_count := tok content
      if mode = "summary" ∨ (mode = "auto" ∧ TOKEN_THRESHOLD < token_count) then
        let summary := generate_summary content summary_style
        let summary_tokens := tok summary
        let sections := extract_headers content
        .summaryRes summary summary_style token_count summary_tokens
          (reduction_factor token_count summary_tokens)
          (completeness_score token_count summary_tokens)
          (completeness_score token_count summary_tokens)
          sections.length (sections.take 20)
      else .fullRes content token_count

/-- Result dictionary of server.py `read_section`. -/
inductive ReadSectionResult where
  | errorRes (msg : String)
  | sectionRes (content : String) (sectionName : String)
deriving DecidableEq

/-- The `type` field of a read_section response. -/
def ReadSectionResult.rtype : ReadSectionResult → String
  | .errorRes _ => "error"
  | .sectionRes _ _ => "section"

/-- The `error` field of a read_section response. -/
def ReadSectionResult.errMsg : ReadSectionResult → Option String
  | .errorRes m => some m
  | _ => none

/-- server.py `read_section` (currently a placeholder when the file
exists). -/
def read_section (fs : String → Option (List Char))
    (file_path section_heading : String) : ReadSectionResult :=
  match fs file_path with
  | none => .errorRes ("File not found: " ++ file_path)
  | some _ =>
      .sectionRes ("Section '" ++ section_heading ++ "' extraction not yet implemented")
        section_heading

/-- Result dictionary of server.py `list_sections`. -/
inductive ListSectionsResult where
  | errorRes (msg : String)
  | tocRes (sections : List (List Char)) (count : Nat)
deriving DecidableEq

/-- The `type` field of a list_sections response. -/
def ListSectionsResult.rtype : ListSectionsResult → String
  | .errorRes _ => "error"
  | .tocRes _ _ => "toc"

/-- The `error` field of a list_sections response. -/
def ListSectionsResult.errMsg : ListSectionsResult → Option String
  | .errorRes m => some m
  | _ => none

/-- server.py `list_sections`. -/
def list_sections (fs : String → Option (List Char))
    (file_path : String) : ListSectionsResult :=
  match fs file_path with
  | none => .errorRes ("File not found: " ++ file_path)
  | some content =>
      let headers := extract_headers content
      .tocRes headers headers.length

/-!
Helper lemmas.
-/

theorem foldl_indicator_score (p : List Char → Bool) (l : List (List Char)) (a : Nat) :
    l.foldl (fun sc ind => if p ind then sc + 2 else sc) a = a + 2 * l.countP p := by
  induction l generalizing a with
  | nil => simp
  | cons x xs ih =>
      by_cases h : p x
      · simp [List.foldl_cons, h, ih, List.countP_cons]
        ring
      · simp [List.foldl_cons, h, ih, List.countP_cons]

theorem round1_zero : round1 0 = 0 := by
  norm_num [round1, rhe]

theorem reduction_factor_zero_right (tc : Nat) : reduction_factor tc 0 = 0 := by
  simp [reduction_factor]

theorem reduction_factor_zero_left (st : Nat) : reduction_factor 0 st = 0 := by
  unfold reduction_factor
  split
  · norm_num [round1_zero]
  · rfl

theorem completeness_score_zero_left (st : Nat) : completeness_score 0 st = 0 := by
  simp [completeness_score]

/-!
Claim C3.
-/

/-- C3 counterexample: on the unit `evidence evidence`, where the
indicator `evidence` occurs twice, the code's score is 2 (one presence
check per indicator), while the claimed per-occurrence cumulative score
would be 4; the claim as stated is false on this input. -/
theorem c3_counterexample :
    sentenceScore (s2l "evidence evidence") = 2 ∧
    specSentenceScore (s2l "evidence evidence") = 4 ∧
    sentenceScore (s2l "evidence evidence") ≠ specSentenceScore (s2l "evidence evidence") := by
  refine ⟨by decide, by decide, by decide⟩

/-- C3 amended: for every sentence-like unit, the score is +2 for each
indicator of the fixed vocabulary that occurs at least once in the unit
(case-insensitive substring; counted once per indicator even when it
occurs several times), plus +1 when the unit's character length is
strictly between 50 and 300. -/
theorem c3_sentence_score_formula (s : List Char) :
    sentenceScore s =
      2 * key_indicators.countP (fun ind => containsSub ind (lowerL s)) +
        (if 50 < s.length ∧ s.length < 300 then 1 else 0) := by
  unfold sentenceScore
  simp only [foldl_indicator_score]
  split <;> simp [Nat.add_comm]

/-!
Claim C6.
-/

/-- C6: for an existing file, mode `auto` yields a summary response
exactly when the estimated token count exceeds `TOKEN_THRESHOLD`
(and a full response otherwise), while mode `summary` always yields a
summary response. -/
theorem c6_smart_read_mode (fs : String → Option (List Char))
    (tok : List Char → Nat) (path style : String) (content : List Char)
    (hfs : fs path = some content) :
    ((smart_read fs tok path "auto" style).rtype = "summary" ↔
      TOKEN_THRESHOLD < tok content) ∧
    ((smart_read fs tok path "auto" style).rtype = "full" ↔
      tok content ≤ TOKEN_THRESHOLD) ∧
    (smart_read fs tok path "summary" style).rtype = "summary" := by
  by_cases h : TOKEN_THRESHOLD < tok content <;>
    simp [smart_read, hfs, SmartReadResult.rtype, h, Nat.not_lt.mp, Nat.not_lt]

/-- C6 witness: a concrete two-character document under the threshold is
returned in full under mode `auto` and summarized under mode `summary`. -/
theorem c6_smart_read_mode_witness :
    ((fun _ => some (s2l "hi")) "doc.md" = some (s2l "hi")) ∧
    (smart_read (fun _ => some (s2l "hi")) List.length "doc.md" "auto" "structured").rtype = "full" ∧
    (smart_read (fun _ => some (s2l "hi")) List.length "doc.md" "summary" "structured").rtype = "summary" := by
  refine ⟨rfl, ?_, ?_⟩
  · exact (c6_smart_read_mode (fun _ => some (s2l "hi")) List.length "doc.md" "structured"
      (s2l "hi") rfl).2.1.mpr (by decide)
  · exact (c6_smart_read_mode (fun _ => some (s2l "hi")) List.length "doc.md" "structured"
      (s2l "hi") rfl).2.2

/-!
Claim C7.
-/

/-- C7: in smart_read responses the two divisions are guarded:
`reduction_factor` is 0 when `summary_tokens` is 0, `completeness_score`
is 0 when `original_tokens` is 0, and both fields are 0 when
`original_tokens` is 0. -/
theorem c7_division_guards (fs : String → Option (List Char))
    (tok : List Char → Nat) (path mode style : String) :
    ((smart_read fs tok path mode style).sumTok = 0 →
      (smart_read fs tok path mode style).redFac = 0) ∧
    ((smart_read fs tok path mode style).origTok = 0 →
      (smart_read fs tok path mode style).compScore = 0) ∧
    ((smart_read fs tok path mode style).origTok = 0 →
      (smart_read fs tok path mode style).redFac = 0 ∧
      (smart_read fs tok path mode style).compScore = 0) := by
  cases hfs : fs path with
  | none =>
      simp [smart_read, hfs, SmartReadResult.sumTok, SmartReadResult.origTok,
        SmartReadResult.redFac, SmartReadResult.compScore]
  | some content =>
      by_cases hm : mode = "summary" ∨ (mode = "auto" ∧ TOKEN_THRESHOLD < tok content)
      · simp only [smart_read, hfs, hm, if_true, SmartReadResult.sumTok,
          SmartReadResult.origTok, SmartReadResult.redFac, SmartReadResult.compScore]
        refine ⟨fun h => ?_, fun h => ?_, fun h => ⟨?_, ?_⟩⟩
        · rw [h]; exact reduction_factor_zero_right _
        · rw [h]; exact completeness_score_zero_left _
        · rw [h]; exact reduction_factor_zero_left _
        · rw [h]; exact completeness_score_zero_left _
      · simp [smart_read, hfs, hm, SmartReadResult.sumTok, SmartReadResult.origTok,
          SmartReadResult.redFac, SmartReadResult.compScore]

/-- C7 witness: on an empty document (0 tokens for both original and
summary) the summary response carries reduction_factor 0 and
completeness_score 0. -/
theorem c7_division_guards_witness :
    (smart_read (fun _ => some []) List.length "d.md" "summary" "structured").origTok = 0 ∧
    (smart_read (fun _ => some []) List.length "d.md" "summary" "structured").redFac = 0 ∧
    (smart_read (fun _ => some []) List.length "d.md" "summary" "structured").compScore = 0 := by
  have h := (c7_division_guards (fun _ => some []) List.length "d.md" "summary" "structured").2.2
    (by decide)
  exact ⟨by decide, h.1, h.2⟩

/-!
Claim C8.
-/

/-- C8: when the file path does not exist, each of smart_read,
read_section and list_sections answers with an error response whose
message contains the requested path. -/
theorem c8_missing_file_error (fs : String → Option (List Char))
    (tok : List Char → Nat) (path mode style heading : String)
    (hfs : fs path = none) :
    (smart_read fs tok path mode style).rtype = "error" ∧
    (smart_read fs tok path mode style).errMsg = some ("File not found: " ++ path) ∧
    (read_section fs path heading).rtype = "error" ∧
    (read_section fs path heading).errMsg = some ("File not found: " ++ path) ∧
    (list_sections fs path).rtype = "error" ∧
    (list_sections fs path).errMsg = some ("File not found: " ++ path) ∧
    ∃ a b : String, "File not found: " ++ path = a ++ path ++ b := by
  refine ⟨?_, ?_, ?_, ?_, ?_, ?_, ⟨"File not found: ", "", by simp⟩⟩ <;>
    simp [smart_read, read_section, list_sections, hfs, SmartReadResult.rtype,
      SmartReadResult.errMsg, ReadSectionResult.rtype, ReadSectionResult.errMsg,
      ListSectionsResult.rtype, ListSectionsResult.errMsg]

/-- C8 witness: a concrete absent path produces the error shape in all
three operations. -/
theorem c8_missing_file_error_witness :
    (smart_read (fun _ => none) List.length "no.md" "auto" "structured").rtype = "error" ∧
    (read_section (fun _ => none) "no.md" "Intro").rtype = "error" ∧
    (list_sections (fun _ => none) "no.md").rtype = "error" ∧
    (list_sections (fun _ => none) "no.md").errMsg = some ("File not found: " ++ "no.md") := by
  have h := c8_missing_file_error (fun _ => none) List.length "no.md" "auto" "structured"
    "Intro" rfl
  exact ⟨h.1, h.2.2.1, h.2.2.2.2.1, h.2.2.2.2.2.1⟩

/-!
Claim C10.
-/

/-- C10: for an existing file, list_sections reports the complete,
untruncated header sequence together with a count equal to its length. -/
theorem c10_list_sections_complete (fs : String → Option (List Char))
    (path : String) (content : List Char) (hfs : fs path = some content) :
    list_sections fs path =
      .tocRes (extract_section_headers content) (extract_section_headers content).length ∧
    ∀ s c, list_sections fs path = .tocRes s c → c = s.length := by
  have h1 : list_sections fs path =
      .tocRes (extract_section_headers content) (extract_section_headers content).length := by
    simp [list_sections, hfs, extract_headers]
  refine ⟨h1, fun s c h => ?_⟩
  have h2 := h1.symm.trans h
  injection h2 with hs hc
  rw [← hs, ← hc]

/-- C10 witness: a concrete two-heading document yields both headers and
count 2. -/
theorem c10_list_sections_complete_witness :
    list_sections (fun _ => some (s2l "## X\nbody\n# Y")) "p.md" =
      ListSectionsResult.tocRes [s2l "X", s2l "Y"] 2 := by
  have h := (c10_list_sections_complete (fun _ => some (s2l "## X\nbody\n# Y")) "p.md"
    (s2l "## X\nbody\n# Y") rfl).1
  exact h.trans (by decide)

/-!
Claim C9: stability of the score sort.
-/

theorem mem_insertScored {α : Type} (x y : Nat × α) (l : List (Nat × α)) :
    y ∈ insertScored x l ↔ y = x ∨ y ∈ l := by
  induction l with
  | nil => simp [insertScored]
  | cons z zs ih =>
      by_cases h : z.1 ≤ x.1
      · simp [insertScored, h, List.mem_cons]
      · simp [insertScored, h, List.mem_cons, ih]
        tauto

theorem insertScored_perm {α : Type} (x : Nat × α) (l : List (Nat × α)) :
    (insertScored x l).Perm (x :: l) := by
  induction l with
  | nil => simp [insertScored]
  | cons z zs ih =>
      by_cases h : z.1 ≤ x.1
      · simp [insertScored, h]
      · simp only [insertScored, h, if_false]
        exact (ih.cons z).trans (List.Perm.swap x z zs)

theorem sortScored_perm {α : Type} (l : List (Nat × α)) : (sortScored l).Perm l := by
  induction l with
  | nil => simp [sortScored]
  | cons x xs ih => exact (insertScored_perm x (sortScored xs)).trans (ih.cons x)

theorem insertScored_pairwise (x : Nat × Nat) (l : List (Nat × Nat))
    (hl : l.Pairwise (fun a b => b.1 < a.1 ∨ (a.1 = b.1 ∧ a.2 < b.2)))
    (hx : ∀ y ∈ l, x.2 < y.2) :
    (insertScored x l).Pairwise (fun a b => b.1 < a.1 ∨ (a.1 = b.1 ∧ a.2 < b.2)) := by
  induction l with
  | nil => simp [insertScored]
  | cons z zs ih =>
      by_cases h : z.1 ≤ x.1
      · simp only [insertScored, h, if_true]
        refine List.Pairwise.cons ?_ hl
        intro y hy
        rcases List.mem_cons.mp hy with hyz | hyzs
        · subst hyz
          rcases Nat.lt_or_ge y.1 x.1 with hlt | hge
          · exact Or.inl hlt
          · exact Or.inr ⟨Nat.le_antisymm hge h, hx y (List.mem_cons_self _ _)⟩
        · have hzy := (List.pairwise_cons.mp hl).1 y hyzs
          rcases hzy with hlt | ⟨heq, _⟩
          · exact Or.inl (Nat.lt_of_lt_of_le hlt h)
          · rcases Nat.lt_or_ge y.1 x.1 with hlt2 | hge2
            · exact Or.inl hlt2
            · exact Or.inr ⟨Nat.le_antisymm hge2 (heq ▸ h), hx y (List.mem_cons_of_mem _ hyzs)⟩
      · simp only [insertScored, h, if_false]
        refine List.Pairwise.cons ?_ (ih (List.pairwise_cons.mp hl).2
          (fun y hy => hx y (List.mem_cons_of_mem _ hy)))
        intro y hy
        rcases (mem_insertScored x y zs).mp hy with hyx | hyzs
        · subst hyx
          exact Or.inl (Nat.lt_of_not_le h)
        · exact (List.pairwise_cons.mp hl).1 y hyzs

theorem sortScored_pairwise (l : List (Nat × Nat))
    (hl : l.Pairwise (fun a b => a.2 < b.2)) :
    (sortScored l).Pairwise (fun a b => b.1 < a.1 ∨ (a.1 = b.1 ∧ a.2 < b.2)) := by
  induction l with
  | nil => simp [sortScored]
  | cons x xs ih =>
      have hrest := ih (List.pairwise_cons.mp hl).2
      refine insertScored_pairwise x (sortScored xs) hrest ?_
      intro y hy
      exact (List.pairwise_cons.mp hl).1 y ((sortScored_perm xs).mem_iff.mp hy)

/-- C9: extract_key_points is deterministic (equal inputs give equal
outputs), and the score sort it uses is a stable descending sort: it
permutes its input, and on index-tagged input any two entries with equal
scores keep their original relative order (the output is pairwise
ordered by score descending with ties in index order). -/
theorem c9_key_points_deterministic_stable :
    (∀ (text : List Char) (num_points : Nat),
      extract_key_points text num_points = extract_key_points text num_points) ∧
    (∀ l : List (Nat × Nat), l.Pairwise (fun a b => a.2 < b.2) →
      (sortScored l).Perm l ∧
      (sortScored l).Pairwise (fun a b => b.1 < a.1 ∨ (a.1 = b.1 ∧ a.2 < b.2))) := by
  exact ⟨fun _ _ => rfl, fun l hl => ⟨sortScored_perm l, sortScored_pairwise l hl⟩⟩

/-- C9 witness: on the concrete tagged list `[(1,0), (2,1), (1,2)]` the
sort yields `[(2,1), (1,0), (1,2)]`, keeping the two score-1 entries in
their original order. -/
theorem c9_key_points_deterministic_stable_witness :
    ([(1, 0), (2, 1), (1, 2)] : List (Nat × Nat)).Pairwise (fun a b => a.2 < b.2) ∧
    (sortScored [(1, 0), (2, 1), (1, 2)]).Perm [(1, 0), (2, 1), (1, 2)] ∧
    (sortScored [(1, 0), (2, 1), (1, 2)]).Pairwise
      (fun a b => b.1 < a.1 ∨ (a.1 = b.1 ∧ a.2 < b.2)) ∧
    sortScored [(1, 0), (2, 1), (1, 2)] = [(2, 1), (1, 0), (1, 2)] := by
  have h := c9_key_points_deterministic_stable.2 [(1, 0), (2, 1), (1, 2)] (by decide)
  exact ⟨by decide, h.1, h.2, by decide⟩


/-!
Claim C4.
-/

theorem takeWhile_append_all {α : Type} (p : α → Bool) (xs ys : List α)
    (h : ∀ c ∈ xs, p c = true) :
    (xs ++ ys).takeWhile p = xs ++ ys.takeWhile p := by
  induction xs with
  | nil => simp
  | cons a l ih =>
      simp only [List.cons_append, List.takeWhile_cons, h a (List.mem_cons_self _ _),
        if_true, List.cons.injEq, true_and]
      exact ih (fun c hc => h c (List.mem_cons_of_mem _ hc))

theorem dropWhile_append_all {α : Type} (p : α → Bool) (xs ys : List α)
    (h : ∀ c ∈ xs, p c = true) :
    (xs ++ ys).dropWhile p = ys.dropWhile p := by
  induction xs with
  | nil => simp
  | cons a l ih =>
      simp only [List.cons_append, List.dropWhile_cons, h a (List.mem_cons_self _ _),
        if_true]
      exact ih (fun c hc => h c (List.mem_cons_of_mem _ hc))

theorem isPrefixOf_append_self (l x : List Char) : l.isPrefixOf (l ++ x) = true := by
  induction l with
  | nil => simp [List.isPrefixOf]
  | cons a t ih => simp [List.isPrefixOf, ih]

theorem findKwMatch_skip (pre suffix : List Char)
    (h : ∀ i < pre.length, kwLit.isPrefixOf (lowerL ((pre ++ suffix).drop i)) = false) :
    findKwMatch (pre ++ suffix) = findKwMatch suffix := by
  induction pre with
  | nil => rfl
  | cons p pre' ih =>
      have h0 : kwLit.isPrefixOf (lowerL (p :: (pre' ++ suffix))) = false := by
        simpa using h 0 (Nat.succ_pos _)
      have hstep : findKwMatch ((p :: pre') ++ suffix) = findKwMatch (pre' ++ suffix) := by
        simp [findKwMatch, h0]
      rw [hstep]
      exact ih (fun i hi => by simpa using h (i + 1) (Nat.succ_lt_succ hi))

/-- C4 counterexample: on `**Keywords:** foo,, bar` the code keeps the
empty token produced by the double comma, so the claim's "empty tokens
excluded" part is false. -/
theorem c4_counterexample :
    extract_keywords_from_abstract (s2l "**Keywords:** foo,, bar") =
      [s2l "foo", [], s2l "bar"] ∧
    extract_keywords_from_abstract (s2l "**Keywords:** foo,, bar") ≠
      [s2l "foo", s2l "bar"] := by
  exact ⟨by decide, by decide⟩

/-- C4 amended: after the first bolded case-insensitive `Keywords:`
label, the comma-separated tokens of the rest of the line are returned
in order of appearance, each trimmed of whitespace, with empty tokens
kept (not excluded); the result is empty when no label matches. -/
theorem c4_keywords_tokens (pre lbl mid line post : List Char)
    (hlbl : lowerL lbl = kwLit)
    (hpre : ∀ i < pre.length,
      kwLit.isPrefixOf (lowerL ((pre ++ (lbl ++ (mid ++ (line ++ post)))).drop i)) = false)
    (hmid : ∀ c ∈ mid, pyWs c = true)
    (hline1 : line ≠ [])
    (hline2 : startsWs line = false)
    (hline3 : ∀ c ∈ line, c ≠ '\n')
    (hpost : post = [] ∨ ∃ r, post = '\n' :: r) :
    extract_keywords_from_abstract (pre ++ (lbl ++ (mid ++ (line ++ post)))) =
      (splitComma line).map stripChars := by
  have hscan := findKwMatch_skip pre (lbl ++ (mid ++ (line ++ post))) hpre
  obtain ⟨c0, line', rfl⟩ : ∃ c0 line', line = c0 :: line' := by
    cases line with
    | nil => exact absurd rfl hline1
    | cons a b => exact ⟨a, b, rfl⟩
  have hc0 : pyWs c0 = false := hline2
  obtain ⟨b, lbl', rfl⟩ : ∃ b lbl', lbl = b :: lbl' := by
    cases lbl with
    | nil =>
        exfalso
        have h2 : (List.nil : List Char) = kwLit := by simpa [lowerL] using hlbl
        exact absurd h2 (by decide)
    | cons a t => exact ⟨a, t, rfl⟩
  have hdropmid : (mid ++ (c0 :: line' ++ post)).dropWhile pyWs = c0 :: (line' ++ post) := by
    rw [dropWhile_append_all pyWs mid _ hmid]
    simp [List.dropWhile_cons, hc0]
  have htake : (c0 :: (line' ++ post)).takeWhile notNl = c0 :: line' := by
    rw [← List.cons_append,
      takeWhile_append_all notNl (c0 :: line') post
        (fun c hc => by simpa [notNl] using hline3 c hc)]
    rcases hpost with rfl | ⟨r, rfl⟩
    · simp
    · simp [List.takeWhile_cons, notNl]
  have hafter : kwAfterLabel (mid ++ (c0 :: line' ++ post)) = some (c0 :: line') := by
    unfold kwAfterLabel
    simp only [hdropmid]
    simp [htake]
  have hlow : lowerL ((b :: lbl') ++ (mid ++ (c0 :: line' ++ post))) =
      kwLit ++ lowerL (mid ++ (c0 :: line' ++ post)) := by
    rw [← hlbl]
    simp [lowerL]
  have hguard : kwLit.isPrefixOf (lowerL (b :: (lbl' ++ (mid ++ (c0 :: line' ++ post))))) = true := by
    rw [← List.cons_append, hlow]
    exact isPrefixOf_append_self _ _
  have hlen : kwLit.length = (b :: lbl').length := by
    rw [← hlbl]; simp [lowerL]
  have hdrop : (b :: (lbl' ++ (mid ++ (c0 :: line' ++ post)))).drop kwLit.length =
      mid ++ (c0 :: line' ++ post) := by
    rw [← List.cons_append, hlen, List.drop_left]
  have hmatch : findKwMatch ((b :: lbl') ++ (mid ++ (c0 :: line' ++ post))) =
      some (c0 :: line') := by
    simp only [List.cons_append] at hguard hdrop hafter ⊢
    simp only [findKwMatch, hguard, if_true, hdrop, hafter]
  unfold extract_keywords_from_abstract
  rw [hscan]
  simp only [List.cons_append] at hmatch ⊢
  rw [hmatch]

/-- C4 witness: the spec's concrete example, with trimming and order. -/
theorem c4_keywords_tokens_witness :
    extract_keywords_from_abstract (s2l "**Keywords:** foo, bar ,  baz") =
      [s2l "foo", s2l "bar", s2l "baz"] := by
  have h := c4_keywords_tokens [] (s2l "**Keywords:**") [' '] (s2l "foo, bar ,  baz") []
    (by decide) (fun i hi => absurd hi (by simp)) (by decide) (by decide) (by decide)
    (by decide) (Or.inl rfl)
  have e : ([] : List Char) ++ (s2l "**Keywords:**" ++ ([' '] ++ (s2l "foo, bar ,  baz" ++ []))) =
      s2l "**Keywords:** foo, bar ,  baz" := by decide
  rw [e] at h
  exact h.trans (by decide)

/-!
Claim C5.
-/

theorem findAbsLit_skip (pre suffix : List Char)
    (h : ∀ i < pre.length, abstractLit.isPrefixOf ((pre ++ suffix).drop i) = false) :
    findAbsLit (pre ++ suffix) = findAbsLit suffix := by
  induction pre with
  | nil => rfl
  | cons p pre' ih =>
      have h0 : abstractLit.isPrefixOf (p :: (pre' ++ suffix)) = false := by
        simpa using h 0 (Nat.succ_pos _)
      have hstep : findAbsLit ((p :: pre') ++ suffix) = findAbsLit (pre' ++ suffix) := by
        simp [findAbsLit, h0]
      rw [hstep]
      exact ih (fun i hi => by simpa using h (i + 1) (Nat.succ_lt_succ hi))

theorem findAbsLit_found (X : List Char) (hX : X ≠ []) :
    findAbsLit (abstractLit ++ X) = some X := by
  have hguard : abstractLit.isPrefixOf (abstractLit ++ X) = true := isPrefixOf_append_self _ _
  have hdrop : (abstractLit ++ X).drop abstractLit.length = X := List.drop_left _ _
  obtain ⟨a, rest, he⟩ : ∃ a rest, abstractLit ++ X = a :: rest := by
    cases h2 : abstractLit ++ X with
    | nil => exact absurd (List.append_eq_nil.mp h2).1 (by decide)
    | cons a r => exact ⟨a, r, rfl⟩
  rw [he] at hguard hdrop ⊢
  simp only [findAbsLit, hguard, hdrop, hX, true_and, ne_eq, not_false_iff, if_true,
    and_true]

theorem absTakeGo_append (xs post : List Char)
    (hxs : ∀ k < xs.length, stopAbs (xs.drop k ++ post) = false)
    (hstop : stopAbs post = true) :
    absTakeGo (xs ++ post) = xs := by
  induction xs with
  | nil =>
      cases post with
      | nil => rfl
      | cons p r => simp [absTakeGo, hstop]
  | cons d rest ih =>
      have h0 : stopAbs (d :: (rest ++ post)) = false := by
        simpa using hxs 0 (Nat.succ_pos _)
      have hrec := ih (fun k hk => by simpa using hxs (k + 1) (Nat.succ_lt_succ hk))
      simp [absTakeGo, h0, hrec]

/-- C5 counterexample: a level-1 heading titled exactly `Abstract`
followed by a blank line is not recognized (the code requires the
literal `## Abstract`), so the code returns the empty string where the
claim demands the following text. -/
theorem c5_counterexample :
    extract_abstract (s2l "# Abstract\n\nHello") = [] ∧
    extract_abstract (s2l "# Abstract\n\nHello") ≠ s2l "Hello" := by
  exact ⟨by decide, by decide⟩

/-- C5 amended: the abstract block is the text after the first
occurrence of the literal `## Abstract` followed by a blank line (the
heading must be level 2; the occurrence is not required to start a
line), up to the next `\n## ` level-2 heading marker, the next `\n---`
horizontal-rule marker, or the end of the document, whichever comes
first, trimmed of surrounding whitespace. -/
theorem c5_abstract_block (pre body post : List Char)
    (hpre : ∀ i < pre.length,
      abstractLit.isPrefixOf ((pre ++ (abstractLit ++ (body ++ post))).drop i) = false)
    (hbody : body ≠ [])
    (hmid : ∀ k < body.length, 0 < k → stopAbs (body.drop k ++ post) = false)
    (hstop : stopAbs post = true) :
    extract_abstract (pre ++ (abstractLit ++ (body ++ post))) = stripChars body := by
  obtain ⟨c0, body', rfl⟩ : ∃ c0 body', body = c0 :: body' := by
    cases body with
    | nil => exact absurd rfl hbody
    | cons a b => exact ⟨a, b, rfl⟩
  have hfind : findAbsLit (pre ++ (abstractLit ++ (c0 :: body' ++ post))) =
      some (c0 :: (body' ++ post)) := by
    rw [findAbsLit_skip pre _ hpre]
    have := findAbsLit_found ((c0 :: body') ++ post) (by simp)
    simpa using this
  have htake : absTakeGo (body' ++ post) = body' := by
    refine absTakeGo_append body' post (fun k hk => ?_) hstop
    simpa using hmid (k + 1) (Nat.succ_lt_succ hk) (Nat.succ_pos _)
  unfold extract_abstract
  rw [hfind]
  show stripChars (c0 :: absTakeGo (body' ++ post)) = stripChars (c0 :: body')
  rw [htake]

/-- C5 witness: a concrete document with a preceding line, a level-2
abstract heading, a body and a following level-2 heading. -/
theorem c5_abstract_block_witness :
    extract_abstract (s2l "Intro\n## Abstract\n\nHello\n## Next") = s2l "Hello" := by
  have h := c5_abstract_block (s2l "Intro\n") (s2l "Hello") (s2l "\n## Next")
    (by decide) (by decide) (by decide) (by decide)
  have e : s2l "Intro\n" ++ (abstractLit ++ (s2l "Hello" ++ s2l "\n## Next")) =
      s2l "Intro\n## Abstract\n\nHello\n## Next" := by decide
  rw [e] at h
  exact h.trans (by decide)

/-!
Claim C2.
-/

theorem findHeadingTgt_append (hl : List Char)
    (pre post : List (Nat × Nat × List Char)) (h : Nat × Nat × List Char)
    (hpre : ∀ x ∈ pre, containsSub hl (lowerL x.2.2) = false)
    (hh : containsSub hl (lowerL h.2.2) = true) :
    findHeadingTgt hl (pre ++ h :: post) = some (h, post) := by
  induction pre with
  | nil => simp [findHeadingTgt, hh]
  | cons y ys ih =>
      have hy := hpre y (List.mem_cons_self _ _)
      simp only [List.cons_append, findHeadingTgt, hy]
      simpa using ih (fun x hx => hpre x (List.mem_cons_of_mem _ hx))

theorem find?_append_first {α : Type} (p : α → Bool) (mid : List α) (e : α) (tl : List α)
    (hmid : ∀ x ∈ mid, p x = false) (he : p e = true) :
    (mid ++ e :: tl).find? p = some e := by
  induction mid with
  | nil => simp [List.find?_cons, he]
  | cons y ys ih =>
      have hy := hmid y (List.mem_cons_self _ _)
      simp only [List.cons_append, List.find?_cons, hy]
      exact ih (fun x hx => hmid x (List.mem_cons_of_mem _ hx))

/-- C2: when the target matches the title of a heading and no earlier
heading matches, the extracted section spans from that heading's
character offset up to (not including) the offset of the next heading
whose level is less than or equal to the matched level (strictly deeper
headings in between stay inside the span), or to the end of the
document when no such heading follows; the content is that span
stripped of surrounding whitespace, with the 1-based line numbers of
both span ends. -/
theorem c2_section_bounds (text tgt : List Char)
    (pre post : List (Nat × Nat × List Char)) (p l : Nat) (ttl : List Char)
    (hscan : scanHeadings 6 text = pre ++ (p, l, ttl) :: post)
    (hpre : ∀ x ∈ pre, containsSub (lowerL tgt) (lowerL x.2.2) = false)
    (htgt : containsSub (lowerL tgt) (lowerL ttl) = true) :
    (∀ mid q l2 t2 tl2, post = mid ++ (q, l2, t2) :: tl2 →
        (∀ x ∈ mid, l < x.2.1) → l2 ≤ l →
        extract_section_content text tgt =
          some (stripChars ((text.drop p).take (q - p)), l,
                (text.take p).count '\n' + 1, (text.take q).count '\n' + 1)) ∧
    ((∀ x ∈ post, l < x.2.1) →
        extract_section_content text tgt =
          some (stripChars ((text.drop p).take (text.length - p)), l,
                (text.take p).count '\n' + 1, (text.take text.length).count '\n' + 1)) := by
  have hfind : findHeadingTgt (lowerL tgt) (pre ++ (p, l, ttl) :: post) =
      some ((p, l, ttl), post) :=
    findHeadingTgt_append _ pre post _ hpre htgt
  constructor
  · intro mid q l2 t2 tl2 hpost hmid hl2
    subst hpost
    have hfq : (mid ++ (q, l2, t2) :: tl2).find? (fun h => decide (h.2.1 ≤ l)) =
        some (q, l2, t2) := by
      refine find?_append_first _ mid _ tl2 (fun x hx => ?_) (by simpa using hl2)
      simpa using Nat.not_le.mpr (hmid x hx)
    unfold extract_section_content
    rw [hscan, hfind]
    simp only [hfq]
  · intro hall
    have hfn : post.find? (fun h => decide (h.2.1 ≤ l)) = none := by
      rw [List.find?_eq_none]
      intro x hx
      simpa using Nat.not_le.mpr (hall x hx)
    unfold extract_section_content
    rw [hscan, hfind]
    simp only [hfn]

/-- C2 witness: the spec's nested example; resolving `A` spans from
`# A` up to, not including, `# B`, with `## A.1` and `## A.2` inside. -/
theorem c2_section_bounds_witness :
    extract_section_content (s2l "# A\n## A.1\n## A.2\n# B") (s2l "A") =
      some (s2l "# A\n## A.1\n## A.2", 1, 1, 4) := by
  have h := (c2_section_bounds (s2l "# A\n## A.1\n## A.2\n# B") (s2l "A")
      [] [(4, 2, s2l "A.1"), (11, 2, s2l "A.2"), (18, 1, s2l "B")] 0 1 (s2l "A")
      (by decide) (by decide) (by decide)).1
      [(4, 2, s2l "A.1"), (11, 2, s2l "A.2")] 18 1 (s2l "B") [] rfl (by decide) (by decide)
  exact h.trans (by decide)

/-!
Claim C1: scanner micro-lemmas.
-/

theorem scan_hashes_run (cap : Nat) (m : Nat) :
    ∀ (i p k : Nat) (cs : List Char),
      scanStep cap (.hashes p k) i (List.replicate m '#' ++ cs) =
        scanStep cap (.hashes p (k + m)) (i + m) cs := by
  induction m with
  | zero => intro i p k cs; simp
  | succ n ih =>
      intro i p k cs
      rw [List.replicate_succ, List.cons_append]
      show scanStep cap (.hashes p k) i ('#' :: (List.replicate n '#' ++ cs)) = _
      simp only [scanStep, if_pos rfl]
      rw [ih (i + 1) p (k + 1) cs]
      have e1 : k + 1 + n = k + (n + 1) := by omega
      have e2 : i + 1 + n = i + (n + 1) := by omega
      rw [e1, e2]
      simp

theorem scan_skip_end (cap : Nat) (s : List Char) :
    ∀ i, (∀ c ∈ s, c ≠ '\n') → scanStep cap .skipLn i s = [] := by
  induction s with
  | nil => intro i _; rfl
  | cons c rest ih =>
      intro i h
      have hc : ¬ c = '\n' := h c (List.mem_cons_self _ _)
      simp only [scanStep, hc, if_false]
      exact ih (i + 1) (fun x hx => h x (List.mem_cons_of_mem _ hx))

theorem scan_skip_line (cap : Nat) (s : List Char) :
    ∀ (tl : List Char) (i : Nat), (∀ c ∈ s, c ≠ '\n') →
      scanStep cap .skipLn i (s ++ '\n' :: tl) =
        scanStep cap .lineStart (i + s.length + 1) tl := by
  induction s with
  | nil => intro tl i _; simp [scanStep]
  | cons c rest ih =>
      intro tl i h
      have hc : ¬ c = '\n' := h c (List.mem_cons_self _ _)
      rw [List.cons_append]
      simp only [scanStep, hc, if_false]
      rw [ih tl (i + 1) (fun x hx => h x (List.mem_cons_of_mem _ hx))]
      have e : i + 1 + rest.length + 1 = i + (c :: rest).length + 1 := by
        simp
        omega
      rw [e]

theorem scan_ws_run (cap : Nat) (w : List Char) :
    ∀ (i p r : Nat) (acc cs : List Char), (∀ c ∈ w, pyWs c = true) →
      scanStep cap (.wsRun p r acc) i (w ++ cs) =
        scanStep cap (.wsRun p r (w.reverse ++ acc)) (i + w.length) cs := by
  induction w with
  | nil => intro i p r acc cs _; simp
  | cons c rest ih =>
      intro i p r acc cs h
      have hc : pyWs c = true := h c (List.mem_cons_self _ _)
      rw [List.cons_append]
      simp only [scanStep, hc, if_true]
      rw [ih (i + 1) p r (c :: acc) cs (fun x hx => h x (List.mem_cons_of_mem _ hx))]
      have e1 : rest.reverse ++ (c :: acc) = (c :: rest).reverse ++ acc := by simp
      have e2 : i + 1 + rest.length = i + (c :: rest).length := by
        simp
        omega
      rw [e1, e2]

theorem scan_title_end (cap : Nat) (t : List Char) :
    ∀ (i p r : Nat) (acc : List Char), (∀ c ∈ t, c ≠ '\n') →
      scanStep cap (.titleRun p r acc) i t = [(p, r, acc.reverse ++ t)] := by
  induction t with
  | nil => intro i p r acc _; simp [scanStep, scanEnd]
  | cons c rest ih =>
      intro i p r acc h
      have hc : ¬ c = '\n' := h c (List.mem_cons_self _ _)
      simp only [scanStep, hc, if_false]
      rw [ih (i + 1) p r (c :: acc) (fun x hx => h x (List.mem_cons_of_mem _ hx))]
      simp

theorem scan_title_line (cap : Nat) (t : List Char) :
    ∀ (tl : List Char) (i p r : Nat) (acc : List Char), (∀ c ∈ t, c ≠ '\n') →
      scanStep cap (.titleRun p r acc) i (t ++ '\n' :: tl) =
        (p, r, acc.reverse ++ t) :: scanStep cap .lineStart (i + t.length + 1) tl := by
  induction t with
  | nil => intro tl i p r acc _; simp [scanStep]
  | cons c rest ih =>
      intro tl i p r acc h
      have hc : ¬ c = '\n' := h c (List.mem_cons_self _ _)
      rw [List.cons_append]
      simp only [scanStep, hc, if_false]
      rw [ih tl (i + 1) p r (c :: acc) (fun x hx => h x (List.mem_cons_of_mem _ hx))]
      have e : i + 1 + rest.length + 1 = i + (c :: rest).length + 1 := by
        simp
        omega
      rw [e]
      simp

theorem hashCount_take (ln : List Char) :
    ln.take (hashCount ln) = List.replicate (hashCount ln) '#' := by
  induction ln with
  | nil => simp [hashCount]
  | cons c t ih =>
      by_cases hc : c = '#'
      · subst hc
        simp [hashCount, List.replicate_succ, ih]
      · simp [hashCount, hc]

theorem hashCount_decomp (ln : List Char) :
    ln = List.replicate (hashCount ln) '#' ++ ln.drop (hashCount ln) := by
  conv_lhs => rw [← List.take_append_drop (hashCount ln) ln]
  rw [hashCount_take]

theorem hashCount_drop_ne (ln : List Char) :
    ∀ c rest, ln.drop (hashCount ln) = c :: rest → ¬ c = '#' := by
  induction ln with
  | nil => intro c rest h; simp [hashCount] at h
  | cons a t ih =>
      intro c rest h
      by_cases ha : a = '#'
      · subst ha
        simp only [hashCount, if_true] at h
        rw [List.drop_succ_cons] at h
        exact ih c rest h
      · simp [hashCount, ha] at h
        rcases h with ⟨rfl, _⟩
        exact ha

theorem mem_of_mem_takeWhileL {α : Type} (p : α → Bool) (l : List α) (x : α)
    (h : x ∈ l.takeWhile p) : x ∈ l := by
  induction l with
  | nil => exact absurd h (by simp)
  | cons a t ih =>
      by_cases ha : p a = true
      · rw [List.takeWhile_cons, if_pos ha] at h
        rcases List.mem_cons.mp h with rfl | h2
        · exact List.mem_cons_self _ _
        · exact List.mem_cons_of_mem _ (ih h2)
      · rw [List.takeWhile_cons, if_neg ha] at h
        simp at h

theorem mem_of_mem_dropWhileL {α : Type} (p : α → Bool) (l : List α) (x : α)
    (h : x ∈ l.dropWhile p) : x ∈ l := by
  induction l with
  | nil => exact absurd h (by simp)
  | cons a t ih =>
      by_cases ha : p a = true
      · rw [List.dropWhile_cons, if_pos ha] at h
        exact List.mem_cons_of_mem _ (ih h)
      · rw [List.dropWhile_cons, if_neg ha] at h
        exact h

theorem takeWhile_all {α : Type} (p : α → Bool) (l : List α) :
    ∀ x ∈ l.takeWhile p, p x = true := by
  induction l with
  | nil => simp
  | cons a t ih =>
      intro x hx
      by_cases ha : p a = true
      · rw [List.takeWhile_cons, if_pos ha] at hx
        rcases List.mem_cons.mp hx with rfl | h2
        · exact ha
        · exact ih x h2
      · rw [List.takeWhile_cons, if_neg ha] at hx
        simp at hx

theorem dropWhile_head_false {α : Type} (p : α → Bool) (l : List α) (c : α) (r : List α)
    (h : l.dropWhile p = c :: r) : p c = false := by
  induction l with
  | nil => simp at h
  | cons a t ih =>
      by_cases ha : p a = true
      · rw [List.dropWhile_cons, if_pos ha] at h
        exact ih h
      · rw [List.dropWhile_cons, if_neg ha] at h
        rcases List.cons.injEq .. ▸ h with ⟨rfl, _⟩
        exact Bool.eq_false_iff.mpr ha

theorem all_of_dropWhile_nil {α : Type} (p : α → Bool) (l : List α)
    (h : l.dropWhile p = []) : ∀ x ∈ l, p x = true := by
  induction l with
  | nil => simp
  | cons a t ih =>
      by_cases ha : p a = true
      · rw [List.dropWhile_cons, if_pos ha] at h
        intro x hx
        rcases List.mem_cons.mp hx with rfl | h2
        · exact ha
        · exact ih h x h2
      · rw [List.dropWhile_cons, if_neg ha] at h
        simp at h

theorem scan_line_step (cap : Nat) (ln tl : List Char) (pos : Nat)
    (hln : ∀ c ∈ ln, c ≠ '\n')
    (hgood : 1 ≤ hashCount ln → hashCount ln ≤ cap →
      ((ln.drop (hashCount ln)).all pyWs) = false) :
    ∃ j, scanStep cap .lineStart pos (ln ++ '\n' :: tl) =
      (match lineHeaderOpt cap ln with
       | some t => [(pos, hashCount ln, t)]
       | none => []) ++ scanStep cap .lineStart j tl := by
  cases hr0 : hashCount ln with
  | zero =>
      cases ln with
      | nil =>
          refine ⟨pos + 1, ?_⟩
          have hlo : lineHeaderOpt cap ([] : List Char) = none := by
            simp [lineHeaderOpt, hashCount]
          rw [hlo]
          simp [scanStep]
      | cons c l' =>
          have hch : ¬ c = '#' := by
            intro hc
            subst hc
            simp [hashCount] at hr0
          have hcn : ¬ c = '\n' := hln c (List.mem_cons_self _ _)
          have hlo : lineHeaderOpt cap (c :: l') = none := by
            simp [lineHeaderOpt, hr0]
          refine ⟨pos + 1 + l'.length + 1, ?_⟩
          rw [hlo, List.cons_append]
          simp only [scanStep]
          rw [if_neg hch, if_neg hcn]
          rw [scan_skip_line cap l' tl (pos + 1)
            (fun x hx => hln x (List.mem_cons_of_mem _ hx))]
          simp
  | succ r' =>
      obtain ⟨rest, hdec, hrest⟩ : ∃ rest, ln = List.replicate (r' + 1) '#' ++ rest ∧
          ln.drop (hashCount ln) = rest := by
        refine ⟨ln.drop (hashCount ln), ?_, rfl⟩
        conv_lhs => rw [hashCount_decomp ln]
        rw [hr0]
      have hentry : scanStep cap .lineStart pos (ln ++ '\n' :: tl) =
          scanStep cap (.hashes pos (r' + 1)) (pos + 1 + r') (rest ++ '\n' :: tl) := by
        conv_lhs => rw [hdec]
        rw [List.append_assoc, List.replicate_succ, List.cons_append]
        simp only [scanStep]
        rw [scan_hashes_run cap r' (pos + 1) pos 1 (rest ++ '\n' :: tl)]
        have e : 1 + r' = r' + 1 := by omega
        rw [e]
        simp
      rcases rest with _ | ⟨c0, rest'⟩
      · -- the line is only hash marks: never a heading when followed by a newline line;
        -- the spillover case (run within cap) is excluded by the hypothesis
        have hcap : ¬ (r' + 1 ≤ cap) := by
          intro hle
          have h3 := hgood (by rw [hr0]; omega) (by rw [hr0]; exact hle)
          rw [hrest] at h3
          simp at h3
        have hlo : lineHeaderOpt cap ln = none := by
          simp only [lineHeaderOpt]
          rw [hrest]
          simp [startsWs]
        refine ⟨pos + 1 + r' + 1, ?_⟩
        rw [hlo, hentry]
        simp only [List.nil_append, scanStep]
        rw [if_neg (by decide : ¬ ('\n' : Char) = '#')]
        rw [if_neg (by simp [hcap])]
        simp
      · have hc0h : ¬ c0 = '#' := hashCount_drop_ne ln c0 rest' hrest
        have hc0mem : c0 ∈ ln := by
          have : c0 ∈ ln.drop (hashCount ln) := by
            rw [hrest]; exact List.mem_cons_self _ _
          exact List.drop_subset _ _ this
        have hc0n : ¬ c0 = '\n' := hln c0 hc0mem
        have hmemrest' : ∀ x ∈ rest', x ∈ ln := by
          intro x hx
          refine List.drop_subset (hashCount ln) ln ?_
          rw [hrest]
          exact List.mem_cons_of_mem _ hx
        by_cases hcap : r' + 1 ≤ cap
        · by_cases hws : pyWs c0 = true
          · obtain ⟨w', t, hsplit, hw'all, htdef⟩ :
                ∃ w' t, rest' = w' ++ t ∧ (∀ x ∈ w', pyWs x = true) ∧
                  rest'.dropWhile pyWs = t :=
              ⟨rest'.takeWhile pyWs, rest'.dropWhile pyWs,
                (List.takeWhile_append_dropWhile pyWs rest').symm, takeWhile_all pyWs rest', rfl⟩
            rcases t with _ | ⟨t0, t'⟩
            · exfalso
              have h3 := hgood (by rw [hr0]; omega) (by rw [hr0]; exact hcap)
              rw [hrest] at h3
              have hall : (c0 :: rest').all pyWs = true := by
                rw [List.all_cons, hws]
                simp only [Bool.true_and]
                rw [List.all_eq_true]
                exact all_of_dropWhile_nil pyWs rest' htdef
              rw [hall] at h3
              exact absurd h3 (by simp)
            · have ht0 : pyWs t0 = false := dropWhile_head_false pyWs rest' t0 t' htdef
              have ht'nl : ∀ x ∈ t', x ≠ '\n' := by
                intro x hx
                apply hln
                apply hmemrest'
                apply mem_of_mem_dropWhileL pyWs rest' x
                rw [htdef]
                exact List.mem_cons_of_mem _ hx
              have hd : (c0 :: rest').dropWhile pyWs = t0 :: t' := by
                rw [List.dropWhile_cons, if_pos hws, htdef]
              have hlo : lineHeaderOpt cap ln = some (t0 :: t') := by
                simp only [lineHeaderOpt]
                rw [hrest, hr0]
                simp [startsWs, hws, hcap, hd]
              refine ⟨pos + 1 + r' + 1 + w'.length + 1 + t'.length + 1, ?_⟩
              rw [hlo, hentry, List.cons_append]
              simp only [scanStep]
              rw [if_neg hc0h, if_pos ⟨hcap, hws⟩]
              rw [hsplit, List.append_assoc, List.cons_append]
              rw [scan_ws_run cap w' (pos + 1 + r' + 1) pos (r' + 1) [c0] _ hw'all]
              simp only [scanStep]
              rw [if_neg (by simp [ht0])]
              rw [scan_title_line cap t' tl (pos + 1 + r' + 1 + w'.length + 1) pos (r' + 1)
                [t0] ht'nl]
              simp
          · have hrest'nl : ∀ x ∈ rest', x ≠ '\n' := fun x hx => hln x (hmemrest' x hx)
            have hlo : lineHeaderOpt cap ln = none := by
              simp only [lineHeaderOpt]
              rw [hrest]
              simp [startsWs, hws]
            refine ⟨pos + 1 + r' + 1 + rest'.length + 1, ?_⟩
            rw [hlo, hentry, List.cons_append]
            simp only [scanStep]
            rw [if_neg hc0h, if_neg (by simp [hws]), if_neg hc0n]
            rw [scan_skip_line cap rest' tl (pos + 1 + r' + 1) hrest'nl]
            simp
        · have hrest'nl : ∀ x ∈ rest', x ≠ '\n' := fun x hx => hln x (hmemrest' x hx)
          have hlo : lineHeaderOpt cap ln = none := by
            simp only [lineHeaderOpt]
            rw [hrest, hr0]
            simp [hcap]
          refine ⟨pos + 1 + r' + 1 + rest'.length + 1, ?_⟩
          rw [hlo, hentry, List.cons_append]
          simp only [scanStep]
          rw [if_neg hc0h, if_neg (by simp [hcap]), if_neg hc0n]
          rw [scan_skip_line cap rest' tl (pos + 1 + r' + 1) hrest'nl]
          simp

theorem scan_line_end (cap : Nat) (ln : List Char) (pos : Nat)
    (hln : ∀ c ∈ ln, c ≠ '\n')
    (hgood : 1 ≤ hashCount ln → hashCount ln ≤ cap →
      ((ln.drop (hashCount ln)).all pyWs) = false) :
    scanStep cap .lineStart pos ln =
      (match lineHeaderOpt cap ln with
       | some t => [(pos, hashCount ln, t)]
       | none => []) := by
  cases hr0 : hashCount ln with
  | zero =>
      cases ln with
      | nil => simp [scanStep, scanEnd, lineHeaderOpt, hashCount]
      | cons c l' =>
          have hch : ¬ c = '#' := by
            intro hc
            subst hc
            simp [hashCount] at hr0
          have hcn : ¬ c = '\n' := hln c (List.mem_cons_self _ _)
          have hlo : lineHeaderOpt cap (c :: l') = none := by
            simp [lineHeaderOpt, hr0]
          rw [hlo]
          simp only [scanStep]
          rw [if_neg hch, if_neg hcn]
          exact scan_skip_end cap l' (pos + 1)
            (fun x hx => hln x (List.mem_cons_of_mem _ hx))
  | succ r' =>
      obtain ⟨rest, hdec, hrest⟩ : ∃ rest, ln = List.replicate (r' + 1) '#' ++ rest ∧
          ln.drop (hashCount ln) = rest := by
        refine ⟨ln.drop (hashCount ln), ?_, rfl⟩
        conv_lhs => rw [hashCount_decomp ln]
        rw [hr0]
      have hentry : scanStep cap .lineStart pos ln =
          scanStep cap (.hashes pos (r' + 1)) (pos + 1 + r') rest := by
        conv_lhs => rw [hdec]
        rw [List.replicate_succ, List.cons_append]
        simp only [scanStep]
        rw [scan_hashes_run cap r' (pos + 1) pos 1 rest]
        have e : 1 + r' = r' + 1 := by omega
        rw [e]
        simp
      rcases rest with _ | ⟨c0, rest'⟩
      · have hlo : lineHeaderOpt cap ln = none := by
          simp only [lineHeaderOpt]
          rw [hrest]
          simp [startsWs]
        rw [hlo, hentry]
        rfl
      · have hc0h : ¬ c0 = '#' := hashCount_drop_ne ln c0 rest' hrest
        have hc0mem : c0 ∈ ln := by
          have : c0 ∈ ln.drop (hashCount ln) := by
            rw [hrest]; exact List.mem_cons_self _ _
          exact List.drop_subset _ _ this
        have hc0n : ¬ c0 = '\n' := hln c0 hc0mem
        have hmemrest' : ∀ x ∈ rest', x ∈ ln := by
          intro x hx
          refine List.drop_subset (hashCount ln) ln ?_
          rw [hrest]
          exact List.mem_cons_of_mem _ hx
        by_cases hcap : r' + 1 ≤ cap
        · by_cases hws : pyWs c0 = true
          · obtain ⟨w', t, hsplit, hw'all, htdef⟩ :
                ∃ w' t, rest' = w' ++ t ∧ (∀ x ∈ w', pyWs x = true) ∧
                  rest'.dropWhile pyWs = t :=
              ⟨rest'.takeWhile pyWs, rest'.dropWhile pyWs,
                (List.takeWhile_append_dropWhile pyWs rest').symm,
                takeWhile_all pyWs rest', rfl⟩
            rcases t with _ | ⟨t0, t'⟩
            · exfalso
              have h3 := hgood (by rw [hr0]; omega) (by rw [hr0]; exact hcap)
              rw [hrest] at h3
              have hall : (c0 :: rest').all pyWs = true := by
                rw [List.all_cons, hws]
                simp only [Bool.true_and]
                rw [List.all_eq_true]
                exact all_of_dropWhile_nil pyWs rest' htdef
              rw [hall] at h3
              exact absurd h3 (by simp)
            · have ht0 : pyWs t0 = false := dropWhile_head_false pyWs rest' t0 t' htdef
              have ht'nl : ∀ x ∈ t', x ≠ '\n' := by
                intro x hx
                apply hln
                apply hmemrest'
                apply mem_of_mem_dropWhileL pyWs rest' x
                rw [htdef]
                exact List.mem_cons_of_mem _ hx
              have hd : (c0 :: rest').dropWhile pyWs = t0 :: t' := by
                rw [List.dropWhile_cons, if_pos hws, htdef]
              have hlo : lineHeaderOpt cap ln = some (t0 :: t') := by
                simp only [lineHeaderOpt]
                rw [hrest, hr0]
                simp [startsWs, hws, hcap, hd]
              rw [hlo, hentry]
              simp only [scanStep]
              rw [if_neg hc0h, if_pos ⟨hcap, hws⟩]
              rw [hsplit]
              rw [scan_ws_run cap w' (pos + 1 + r' + 1) pos (r' + 1) [c0] _ hw'all]
              simp only [scanStep]
              rw [if_neg (by simp [ht0])]
              rw [scan_title_end cap t' (pos + 1 + r' + 1 + w'.length + 1) pos (r' + 1)
                [t0] ht'nl]
              simp
          · have hrest'nl : ∀ x ∈ rest', x ≠ '\n' := fun x hx => hln x (hmemrest' x hx)
            have hlo : lineHeaderOpt cap ln = none := by
              simp only [lineHeaderOpt]
              rw [hrest]
              simp [startsWs, hws]
            rw [hlo, hentry]
            simp only [scanStep]
            rw [if_neg hc0h, if_neg (by simp [hws]), if_neg hc0n]
            exact scan_skip_end cap rest' (pos + 1 + r' + 1) hrest'nl
        · have hrest'nl : ∀ x ∈ rest', x ≠ '\n' := fun x hx => hln x (hmemrest' x hx)
          have hlo : lineHeaderOpt cap ln = none := by
            simp only [lineHeaderOpt]
            rw [hrest, hr0]
            simp [hcap]
          rw [hlo, hentry]
          simp only [scanStep]
          rw [if_neg hc0h, if_neg (by simp [hcap]), if_neg hc0n]
          exact scan_skip_end cap rest' (pos + 1 + r' + 1) hrest'nl

theorem linesGo_no_nl (ln : List Char) :
    ∀ acc, (∀ c ∈ ln, c ≠ '\n') → linesGo ln acc = [acc.reverse ++ ln] := by
  induction ln with
  | nil => intro acc _; simp [linesGo]
  | cons c r ih =>
      intro acc h
      have hc : ¬ c = '\n' := h c (List.mem_cons_self _ _)
      simp only [linesGo, hc, if_false]
      rw [ih (c :: acc) (fun x hx => h x (List.mem_cons_of_mem _ hx))]
      simp

theorem linesGo_split (ln tl : List Char) :
    ∀ acc, (∀ c ∈ ln, c ≠ '\n') →
      linesGo (ln ++ '\n' :: tl) acc = (acc.reverse ++ ln) :: linesGo tl [] := by
  induction ln with
  | nil => intro acc _; simp [linesGo]
  | cons c r ih =>
      intro acc h
      have hc : ¬ c = '\n' := h c (List.mem_cons_self _ _)
      rw [List.cons_append]
      simp only [linesGo, hc, if_false]
      rw [ih (c :: acc) (fun x hx => h x (List.mem_cons_of_mem _ hx))]
      simp

theorem scanStep_lines (cap : Nat) : ∀ (n : Nat) (text : List Char) (pos : Nat),
    text.length ≤ n →
    (∀ ln ∈ linesOf text, 1 ≤ hashCount ln → hashCount ln ≤ cap →
      ((ln.drop (hashCount ln)).all pyWs) = false) →
    (scanStep cap .lineStart pos text).map (fun h => h.2.2) =
      (linesOf text).filterMap (lineHeaderOpt cap) := by
  intro n
  induction n with
  | zero =>
      intro text pos hlen _
      have htext : text = [] := List.length_eq_zero.mp (Nat.le_zero.mp hlen)
      subst htext
      simp [scanStep, scanEnd, linesOf, linesGo, lineHeaderOpt, hashCount]
  | succ m ih =>
      intro text pos hlen hgood
      have ht1nl : ∀ c ∈ text.takeWhile notNl, c ≠ '\n' := by
        intro c hc
        have h2 := takeWhile_all notNl text c hc
        simpa [notNl] using h2
      cases hd : text.dropWhile notNl with
      | nil =>
          have htext : text = text.takeWhile notNl := by
            conv_lhs => rw [← List.takeWhile_append_dropWhile notNl text]
            rw [hd]
            simp
          have hl1 : linesOf (text.takeWhile notNl) = [text.takeWhile notNl] := by
            unfold linesOf
            rw [linesGo_no_nl _ [] ht1nl]
            simp
          have hmem1 : text.takeWhile notNl ∈ linesOf text := by
            have h2 : linesOf text = [text.takeWhile notNl] := by
              conv_lhs => rw [htext]
              exact hl1
            rw [h2]
            exact List.mem_cons_self _ _
          have hgood1 := hgood (text.takeWhile notNl) hmem1
          conv_lhs => rw [htext]
          conv_rhs => rw [htext, hl1]
          rw [scan_line_end cap _ pos ht1nl hgood1]
          cases hopt : lineHeaderOpt cap (text.takeWhile notNl) <;>
            simp [List.filterMap_cons, hopt]
      | cons d rest =>
          have hdnl : d = '\n' := by
            have h2 := dropWhile_head_false notNl text d rest hd
            simpa [notNl] using h2
          subst hdnl
          have htext : text = text.takeWhile notNl ++ '\n' :: rest := by
            conv_lhs => rw [← List.takeWhile_append_dropWhile notNl text]
            rw [hd]
          have hlines : linesOf text = (text.takeWhile notNl) :: linesOf rest := by
            conv_lhs => rw [htext]
            unfold linesOf
            rw [linesGo_split _ _ [] ht1nl]
            simp
          have hlenrest : rest.length ≤ m := by
            have he : text.length = (text.takeWhile notNl).length + (rest.length + 1) := by
              conv_lhs => rw [htext]
              simp
            omega
          have hgood1 := hgood (text.takeWhile notNl)
            (by rw [hlines]; exact List.mem_cons_self _ _)
          have hgoodrest : ∀ ln ∈ linesOf rest, 1 ≤ hashCount ln → hashCount ln ≤ cap →
              ((ln.drop (hashCount ln)).all pyWs) = false :=
            fun ln hl => hgood ln (by rw [hlines]; exact List.mem_cons_of_mem _ hl)
          obtain ⟨j, hscan⟩ := scan_line_step cap (text.takeWhile notNl) rest pos ht1nl hgood1
          rw [hlines]
          conv_lhs => rw [htext]
          rw [hscan, List.map_append, ih rest j hlenrest hgoodrest]
          cases hopt : lineHeaderOpt cap (text.takeWhile notNl) <;>
            simp [List.filterMap_cons, hopt]

/-- C1 counterexample: the heading regex of `extract_section_headers`
accepts only 1 to 3 hash marks and keeps trailing whitespace in the
title: on `#### D` + newline + `# T␣␣` the claim demands records for
both lines (level 4 title `D`, and title `T` trimmed), but the code
yields only the untrimmed `T␣␣`. -/
theorem c1_counterexample :
    extract_section_headers (s2l "#### D\n# T  ") = [s2l "T  "] ∧
    s2l "T  " ≠ s2l "T" ∧
    (∀ t ∈ extract_section_headers (s2l "#### D\n# T  "), t ≠ s2l "D") := by
  refine ⟨by decide, by decide, by decide⟩

/-- C1 amended: heading discovery by `extract_section_headers` matches
lines beginning with 1 to 3 hash characters followed by at least one
whitespace character; it records only the title (no level or offset),
the title being the remainder of the line after the marker and the
following whitespace run, with trailing whitespace kept (not trimmed);
exactly one title per such line, in document order, provided no
heading-marker line of the document has a remainder consisting only of
whitespace (such a line would make the regex's `\s+` consume the line
break and swallow the following line). -/
theorem c1_header_line_correspondence (text : List Char)
    (hgood : ∀ ln ∈ linesOf text, 1 ≤ hashCount ln → hashCount ln ≤ 3 →
      ((ln.drop (hashCount ln)).all pyWs) = false) :
    extract_section_headers text = (linesOf text).filterMap (lineHeaderOpt 3) := by
  unfold extract_section_headers scanHeadings
  exact scanStep_lines 3 text.length text 0 le_rfl hgood

/-- C1 witness: a concrete document with a level-1 heading, a
malformed `##x` line, a level-3 heading with trailing blanks and a
plain line. -/
theorem c1_header_line_correspondence_witness :
    (∀ ln ∈ linesOf (s2l "# A\n##x\n### B  \nplain"), 1 ≤ hashCount ln →
      hashCount ln ≤ 3 → ((ln.drop (hashCount ln)).all pyWs) = false) ∧
    extract_section_headers (s2l "# A\n##x\n### B  \nplain") =
      (linesOf (s2l "# A\n##x\n### B  \nplain")).filterMap (lineHeaderOpt 3) ∧
    extract_section_headers (s2l "# A\n##x\n### B  \nplain") = [s2l "A", s2l "B  "] := by
  refine ⟨by decide, c1_header_line_correspondence _ (by decide), by decide⟩
